import Mathlib

/-!
Verification of the `ContextResponse` pair builder from `src/nlp.py`
(repository liotac/Dual-Encoder).

The builder consumes one dialogue (a list of utterances) per call and lazily
produces labeled (context, response, label) pairs.  It keeps a bounded deque
of candidate negative utterances (`buffer`, capacity `buffer_size`), a list of
dialogues deferred during warmup (`initial_samples`), a lag-one carry-over
slice (`prev_utterances`) and a pass counter.

The embedding below is a direct translation of the Python source:

  * utterances are an arbitrary type `α` with decidable equality (the code
    only compares them with `==` and `in`);
  * the `collections.deque` with `maxlen` becomes a `List α` whose head is the
    deque's left end, with `dequeAppend` / `dequeRotate` / `dequePop` /
    `dequeExtend` mirroring `append` / `rotate` / `pop` / `extend`;
  * `random.randrange(buffer_size)` is modelled by an explicit stream of
    pre-drawn rotation offsets (`rand : List Nat`), consumed one value per
    `rotate` call, exactly where the source calls the generator;
  * the generator protocol becomes a function returning the list of pairs
    yielded before termination or before an uncaught exception, together with
    the final mutable state and an optional error;
  * the recursive `__call__` re-entry used by the FLUSH phase is modelled with
    an explicit fuel argument (`Err.fuel` marks exhaustion; it never occurs in
    any run analysed below);
  * Python's negative slice indices (`dialogue[:k]` with `k < 0`) are modelled
    by `pySliceTo`, over `Int`, exactly as Python evaluates them.

Errors of the source are renamed as in the specification:
  * `Err.emptyPop`  — the `IndexError` re-raised at create_pairs line 188
                      (`PoolExhaustedError`);
  * `Err.deadlock`  — the `Exception` raised at line 196
                      (`SamplingDeadlockError`);
  * `Err.rawPop`    — a hypothetical `IndexError` escaping the `pop` inside
                      the retry `while` loop (line 193); proved unreachable.

The state record carries one ghost field, `processed`, not present in the
source: it logs, in order, every dialogue handed to `create_pairs`.  It is
write-only bookkeeping used to state the "every dialogue contributes pairs
exactly once" claims; no control flow reads it.
-/

namespace DualEncoder

/-- A labeled training pair as yielded by the source: `{'context': …,
'response': …, 'label': 0|1}`. -/
structure Pair (α : Type) where
  context : List α
  response : α
  label : Nat
deriving DecidableEq

/-- The failure modes of the builder (see the module docstring). -/
inductive Err where
  | emptyPop
  | deadlock
  | rawPop
  | fuel
deriving DecidableEq

/-- Python `deque(maxlen=m).append(x)`: append on the right; when the deque is
already at capacity the leftmost element is silently discarded (for `m = 0`
everything is discarded). -/
def dequeAppend (maxlen : Nat) (l : List α) (x : α) : List α :=
  if l.length < maxlen then l ++ [x] else (l ++ [x]).drop (l.length + 1 - maxlen)

/-- Python `deque.extend(xs)`: repeated `append`. -/
def dequeExtend (maxlen : Nat) (l : List α) (xs : List α) : List α :=
  xs.foldl (dequeAppend maxlen) l

/-- Python `deque.rotate(k)` for `k ≥ 0`: the rightmost `k % len` elements
move to the front. -/
def dequeRotate (l : List α) (k : Nat) : List α :=
  if l.length = 0 then l
  else l.drop (l.length - k % l.length) ++ l.take (l.length - k % l.length)

/-- Python `deque.pop()`: remove and return the rightmost element, or fail on
an empty deque. -/
def dequePop (l : List α) : Option (α × List α) :=
  match l.getLast? with
  | none => none
  | some x => some (x, l.dropLast)

/-- One value of the modelled `random.randrange(buffer_size)` stream. -/
def nextRand (rand : List Nat) : Nat × List Nat :=
  match rand with
  | [] => (0, [])
  | r :: rs => (r, rs)

/-- Python `dialogue[:k]` for an arbitrary (possibly negative) `Int` index
`k`: a nonnegative `k` keeps the first `k` elements, a negative `k` drops the
last `-k` elements. -/
def pySliceTo (l : List α) (k : Int) : List α :=
  if k < 0 then l.take (l.length - (-k).toNat) else l.take k.toNat

/-- The retry `while` loop of `create_pairs` (src/nlp.py lines 190-194): while
the candidate collides with the window and the budget `loop_c` is nonzero,
push the candidate back, rotate by a fresh random offset, pop a new candidate
and decrement the budget.  Returns the final candidate, buffer, random stream
and budget; the error case is the hypothetical `IndexError` of the inner
`pop`. -/
def retryLoop [DecidableEq α] (buffer_size : Nat) (context : List α) (response : α) :
    Nat → α → List α → List Nat →
    Except (Err × List α × List Nat × Nat) (α × List α × List Nat × Nat)
  | 0, negative, buf, rand => .ok (negative, buf, rand, 0)
  | loop_c + 1, negative, buf, rand =>
    if negative ∈ context ∨ negative = response then
      let buf1 := dequeAppend buffer_size buf negative
      let r := nextRand rand
      let buf2 := dequeRotate buf1 r.1
      match dequePop buf2 with
      | none => .error (.rawPop, buf2, r.2, loop_c + 1)
      | some p => retryLoop buffer_size context response loop_c p.1 p.2 r.2
    else .ok (negative, buf, rand, loop_c + 1)

/-- One negative draw (src/nlp.py lines 184-196): rotate by a random offset,
pop (re-raising `IndexError` as `Err.emptyPop` when the pool is empty), run
the retry loop, and raise `Err.deadlock` when the budget ended at zero. -/
def drawNegative [DecidableEq α] (buffer_size : Nat) (context : List α) (response : α)
    (buf : List α) (rand : List Nat) (loop_c : Nat) :
    Except (Err × List α × List Nat × Nat) (α × List α × List Nat × Nat) :=
  let r := nextRand rand
  let buf1 := dequeRotate buf r.1
  match dequePop buf1 with
  | none => .error (.emptyPop, buf1, r.2, loop_c)
  | some p =>
    match retryLoop buffer_size context response loop_c p.1 p.2 r.2 with
    | .error e => .error e
    | .ok q =>
      if q.2.2.2 = 0 then .error (.deadlock, q.2.1, q.2.2.1, q.2.2.2)
      else .ok q

/-- The `for _ in range(num_negative)` loop of one window (src/nlp.py lines
183-199): successive draws thread the buffer, the random stream and the shared
budget `loop_c`; each successful draw yields a label-0 pair, an error aborts
the remaining draws. -/
def drawNegatives [DecidableEq α] (buffer_size : Nat) (context : List α) (response : α) :
    Nat → List α → List Nat → Nat →
    List (Pair α) × List α × List Nat × Nat × Option Err
  | 0, buf, rand, loop_c => ([], buf, rand, loop_c, none)
  | n + 1, buf, rand, loop_c =>
    match drawNegative buffer_size context response buf rand loop_c with
    | .error e => ([], e.2.1, e.2.2.1, e.2.2.2, some e.1)
    | .ok q =>
      match drawNegatives buffer_size context response n q.2.1 q.2.2.1 q.2.2.2 with
      | (ps, buf2, rand2, lc2, err) =>
        (⟨context, q.1, 0⟩ :: ps, buf2, rand2, lc2, err)

/-- The window loop of `create_pairs` (src/nlp.py lines 175-201), by recursion
on suffixes of the dialogue: for each suffix longer than `context_size`, the
window's context is its leading `context_size` elements and its true response
the next element; the budget `loop_c` is (re)initialised to the current buffer
occupancy once per window.  Each fully processed window contributes its
`num_negative` label-0 pairs followed by one label-1 pair. -/
def create_pairs_go [DecidableEq α] (context_size buffer_size num_negative : Nat) :
    List α → List α → List Nat → List (Pair α) × List α × List Nat × Option Err
  | [], buf, rand => ([], buf, rand, none)
  | u :: us, buf, rand =>
    if h : context_size < (u :: us).length then
      match drawNegatives buffer_size ((u :: us).take context_size)
          ((u :: us).get ⟨context_size, h⟩) num_negative buf rand buf.length with
      | (ps, buf1, rand1, _, some e) => (ps, buf1, rand1, some e)
      | (ps, buf1, rand1, _, none) =>
        match create_pairs_go context_size buffer_size num_negative us buf1 rand1 with
        | (rest, buf2, rand2, err2) =>
          (ps ++ ⟨(u :: us).take context_size, (u :: us).get ⟨context_size, h⟩, 1⟩ :: rest,
           buf2, rand2, err2)
    else ([], buf, rand, none)

/-- The object state of `ContextResponse.__init__` (src/nlp.py lines 123-133),
the four configuration fields plus the mutable state, together with the
modelled random stream and the ghost `processed` log (see the module
docstring). -/
structure ContextResponse (α : Type) where
  total_dialogues : Nat
  context_size : Nat
  buffer_size : Nat
  num_negative : Nat
  buffer : List α
  initial_samples : List (List α)
  prev_utterances : List α
  counter : Nat
  rand : List Nat
  processed : List (List α)
deriving DecidableEq

/-- `ContextResponse.__init__`: the two asserts
(`num_negative < buffer_size`, `buffer_size <= total_dialogues`) reject the
configuration before any field is set; a falsy (zero) `num_negative` is
replaced by 1. -/
def ContextResponse.init (α : Type) (total_dialogues context_size buffer_size num_negative : Nat)
    (rand : List Nat) : Option (ContextResponse α) :=
  if num_negative < buffer_size ∧ buffer_size ≤ total_dialogues then
    some { total_dialogues := total_dialogues
           context_size := context_size
           buffer_size := buffer_size
           num_negative := if num_negative = 0 then 1 else num_negative
           buffer := []
           initial_samples := []
           prev_utterances := []
           counter := 0
           rand := rand
           processed := [] }
  else none

/-- `ContextResponse.create_pairs` acting on the object state. -/
def ContextResponse.create_pairs [DecidableEq α] (s : ContextResponse α) (dialogue : List α) :
    List (Pair α) × ContextResponse α × Option Err :=
  match create_pairs_go s.context_size s.buffer_size s.num_negative dialogue s.buffer s.rand with
  | (ps, buf, rand, err) =>
    (ps, { s with buffer := buf, rand := rand, processed := s.processed ++ [dialogue] }, err)

/-- The warmup fill (src/nlp.py lines 152-155): walk the dialogue from its
tail backward, appending each utterance while the buffer is below capacity.
The argument is the reversed dialogue. -/
def warmupFillGo (buffer_size : Nat) : List α → List α → List α
  | buf, [] => buf
  | buf, x :: xs =>
    if buf.length < buffer_size then warmupFillGo buffer_size (dequeAppend buffer_size buf x) xs
    else buf

/-- src/nlp.py line 149, the slice inserted by `extend`: the pending
carry-over truncated to the buffer's remaining capacity,
`prev_utterances[:min(len(prev_utterances), maxlen - len(buffer))]`. -/
def carryIns (s : ContextResponse α) : List α :=
  s.prev_utterances.take (min s.prev_utterances.length (s.buffer_size - s.buffer.length))

/-- src/nlp.py line 149: the buffer after the carry-over insertion at the
start of a call. -/
def bufAfterCarry (s : ContextResponse α) : List α :=
  dequeExtend s.buffer_size s.buffer (carryIns s)

/-- src/nlp.py line 150: the new pending carry-over slice,
`dialogue[:min((len(dialogue) - context_size) * num_negative, len(dialogue))]`
with Python slice semantics (the index may be negative). -/
def newCarry (s : ContextResponse α) (dialogue : List α) : List α :=
  pySliceTo dialogue
    (min (((dialogue.length : Int) - (s.context_size : Int)) * (s.num_negative : Int))
      (dialogue.length : Int))

/-- One step of sequential driving: skip once an error has occurred, otherwise
run the call and concatenate its pairs (this is both `yield from` inside the
FLUSH loop and the way a caller drives consecutive top-level calls). -/
def seqStep [DecidableEq α]
    (call1 : ContextResponse α → List α → List (Pair α) × ContextResponse α × Option Err)
    (acc : List (Pair α) × ContextResponse α × Option Err) (d' : List α) :
    List (Pair α) × ContextResponse α × Option Err :=
  match acc with
  | (ps, st, some e) => (ps, st, some e)
  | (ps, st, none) =>
    match call1 st d' with
    | (ps2, st2, oe) => (ps ++ ps2, st2, oe)

/-- `ContextResponse.__call__` (src/nlp.py lines 142-168) with explicit fuel
for the recursive FLUSH re-entry.  In order: increment the counter, insert the
pending carry-over into the buffer up to remaining capacity (`bufAfterCarry`),
compute the new carry-over slice from the dialogue (`newCarry`), then branch:
WARMUP (buffer below capacity) fills the buffer from the dialogue's tail,
defers the dialogue and yields nothing; FLUSH (counter equal to
`total_dialogues`) replays the current dialogue followed by the deferred ones
through the full protocol; otherwise STEADY yields the pairs of
`create_pairs`. -/
def ContextResponse.call [DecidableEq α] :
    Nat → ContextResponse α → List α → List (Pair α) × ContextResponse α × Option Err
  | fuel, s, dialogue =>
    if (bufAfterCarry s).length < s.buffer_size then
      ([], { s with counter := s.counter + 1
                    buffer := warmupFillGo s.buffer_size (bufAfterCarry s) dialogue.reverse
                    prev_utterances := newCarry s dialogue
                    initial_samples := s.initial_samples ++ [dialogue] }, none)
    else if s.counter + 1 = s.total_dialogues then
      match fuel with
      | 0 => ([], { s with counter := s.counter + 1
                           buffer := bufAfterCarry s
                           prev_utterances := newCarry s dialogue }, some .fuel)
      | f + 1 =>
        (dialogue :: s.initial_samples).foldl
          (seqStep (fun st d' => ContextResponse.call f st d'))
          ([], { s with counter := 0
                        buffer := bufAfterCarry s
                        prev_utterances := newCarry s dialogue
                        initial_samples := [] }, none)
    else
      ContextResponse.create_pairs
        { s with counter := s.counter + 1
                 buffer := bufAfterCarry s
                 prev_utterances := newCarry s dialogue } dialogue

/-- Driving the builder over a list of dialogues: consecutive calls threading
the state, concatenating the produced pairs, stopping at the first error. -/
def callList [DecidableEq α] (fuel : Nat) (s : ContextResponse α) (ds : List (List α)) :
    List (Pair α) × ContextResponse α × Option Err :=
  ds.foldl (seqStep (fun st d' => ContextResponse.call fuel st d')) ([], s, none)

/-- The (context, response) windows of a dialogue, one for each suffix longer
than `context_size`, in increasing window-start order.  This is the reference
decomposition used to state the per-window claims. -/
def windows (context_size : Nat) : List α → List (List α × α)
  | [] => []
  | u :: us =>
    if h : context_size < (u :: us).length then
      ((u :: us).take context_size, (u :: us).get ⟨context_size, h⟩) :: windows context_size us
    else []

/-- Modelled from the wording of claim C2 (spec §4.3a): one negative draw in
which the retry budget is initialised to the current pool size at the start of
THIS draw and `SamplingDeadlockError` is raised exactly when the budget
reached zero without an acceptable candidate having been found (i.e. the final
candidate still collides).  Written only to compare the claimed behaviour with
the code's `drawNegative`; the draw mechanics (rotate, pop, push-back) are
shared. -/
def drawNegativeSpec [DecidableEq α] (buffer_size : Nat) (context : List α) (response : α)
    (buf : List α) (rand : List Nat) :
    Except (Err × List α × List Nat) (α × List α × List Nat) :=
  let lc := buf.length
  let r := nextRand rand
  let buf1 := dequeRotate buf r.1
  match dequePop buf1 with
  | none => .error (.emptyPop, buf1, r.2)
  | some p =>
    match retryLoop buffer_size context response lc p.1 p.2 r.2 with
    | .error e => .error (e.1, e.2.1, e.2.2.1)
    | .ok q =>
      if q.1 ∈ context ∨ q.1 = response then .error (.deadlock, q.2.1, q.2.2.1)
      else .ok (q.1, q.2.1, q.2.2.1)

/-- Modelled from the wording of claim C2: `num_negative` draws, each with a
freshly initialised budget (`drawNegativeSpec`). -/
def drawNegativesSpec [DecidableEq α] (buffer_size : Nat) (context : List α) (response : α) :
    Nat → List α → List Nat → List (Pair α) × List α × List Nat × Option Err
  | 0, buf, rand => ([], buf, rand, none)
  | n + 1, buf, rand =>
    match drawNegativeSpec buffer_size context response buf rand with
    | .error e => ([], e.2.1, e.2.2, some e.1)
    | .ok q =>
      match drawNegativesSpec buffer_size context response n q.2.1 q.2.2 with
      | (ps, buf2, rand2, err) => (⟨context, q.1, 0⟩ :: ps, buf2, rand2, err)

/-- Modelled from the wording of claim C6 (spec §4.3 step 3): "the leading
slice of `d` of length `min((len(d) − context_size) × num_negative, len(d))`",
a negative computed length denoting the empty slice.  Written only to compare
the claimed slice with the code's Python slice `d[:min(...)]`. -/
def specCarryOver (context_size num_negative : Nat) (d : List α) : List α :=
  d.take (min (((d.length : Int) - (context_size : Int)) * (num_negative : Int))
    (d.length : Int)).toNat

instance {ε σ : Type} [DecidableEq ε] [DecidableEq σ] : DecidableEq (Except ε σ) := fun x y =>
  match x, y with
  | .ok a, .ok b =>
    if h : a = b then .isTrue (by rw [h]) else .isFalse (fun hc => h (Except.ok.inj hc))
  | .error a, .error b =>
    if h : a = b then .isTrue (by rw [h]) else .isFalse (fun hc => h (Except.error.inj hc))
  | .ok _, .error _ => .isFalse (fun hc => Except.noConfusion hc)
  | .error _, .ok _ => .isFalse (fun hc => Except.noConfusion hc)

/-! ## Deque lemmas -/

theorem dequeAppend_length (m : Nat) (l : List α) (x : α) :
    (dequeAppend m l x).length = if l.length < m then l.length + 1 else m := by
  unfold dequeAppend
  split
  · simp
  · rename_i h
    simp only [List.length_drop, List.length_append, List.length_cons, List.length_nil]
    omega

theorem dequeAppend_length_le (m : Nat) (l : List α) (x : α) :
    (dequeAppend m l x).length ≤ m := by
  rw [dequeAppend_length]
  split <;> omega

theorem dequeAppend_ne_nil (m : Nat) (hm : 0 < m) (l : List α) (x : α) :
    dequeAppend m l x ≠ [] := by
  have h := dequeAppend_length m l x
  intro hnil
  rw [hnil] at h
  simp only [List.length_nil] at h
  split at h <;> omega

theorem dequeAppend_of_lt (m : Nat) (l : List α) (x : α) (h : l.length < m) :
    dequeAppend m l x = l ++ [x] := by
  unfold dequeAppend
  simp [h]

theorem dequeRotate_length (l : List α) (k : Nat) : (dequeRotate l k).length = l.length := by
  unfold dequeRotate
  split
  · rfl
  · simp only [List.length_append, List.length_drop, List.length_take]
    have hj : l.length - k % l.length ≤ l.length := Nat.sub_le _ _
    omega

theorem dequeRotate_ne_nil (l : List α) (k : Nat) (h : l ≠ []) : dequeRotate l k ≠ [] := by
  intro hc
  apply h
  have := dequeRotate_length l k
  rw [hc] at this
  simpa using (List.length_eq_zero.mp this.symm)

theorem dequePop_eq_none (l : List α) : dequePop l = none ↔ l = [] := by
  unfold dequePop
  cases h : l.getLast? with
  | none => simpa using List.getLast?_eq_none_iff.mp h
  | some x =>
    simp only []
    constructor
    · intro hc; exact Option.noConfusion hc
    · intro hc; rw [hc] at h; simp at h

theorem dequePop_some_length (l : List α) (p : α × List α) (h : dequePop l = some p) :
    p.2.length = l.length - 1 := by
  unfold dequePop at h
  cases hg : l.getLast? with
  | none => rw [hg] at h; exact Option.noConfusion h
  | some x =>
    rw [hg] at h
    cases h
    simp [List.length_dropLast]

theorem dequeExtend_length_le (m : Nat) (l : List α) (xs : List α) (h : l.length ≤ m) :
    (dequeExtend m l xs).length ≤ m := by
  induction xs generalizing l with
  | nil => exact h
  | cons x xs ih =>
    unfold dequeExtend
    simp only [List.foldl_cons]
    exact ih (dequeAppend m l x) (dequeAppend_length_le m l x)

theorem dequeExtend_no_evict (m : Nat) (l : List α) (xs : List α)
    (h : l.length + xs.length ≤ m) : dequeExtend m l xs = l ++ xs := by
  induction xs generalizing l with
  | nil => simp [dequeExtend]
  | cons x xs ih =>
    unfold dequeExtend
    simp only [List.foldl_cons, List.length_cons] at *
    rw [dequeAppend_of_lt m l x (by omega)]
    have := ih (l ++ [x]) (by simp; omega)
    unfold dequeExtend at this
    rw [this]
    simp

theorem warmupFillGo_eq (m : Nat) (buf r : List α) :
    warmupFillGo m buf r = buf ++ r.take (m - buf.length) := by
  induction r generalizing buf with
  | nil => simp [warmupFillGo]
  | cons x xs ih =>
    unfold warmupFillGo
    split
    · rename_i h
      rw [dequeAppend_of_lt m buf x h, ih]
      have hm : m - buf.length = (m - (buf.length + 1)) + 1 := by omega
      simp only [List.length_append, List.length_cons, List.length_nil]
      rw [hm, List.take_succ_cons]
      simp
    · rename_i h
      have hm : m - buf.length = 0 := by omega
      simp [hm]

/-! ## Retry-loop lemmas -/

theorem retryLoop_zero [DecidableEq α] (bsz : Nat) (ctx : List α) (resp : α)
    (neg : α) (buf : List α) (rand : List Nat) :
    retryLoop bsz ctx resp 0 neg buf rand = .ok (neg, buf, rand, 0) := rfl

theorem retryLoop_succ [DecidableEq α] (bsz : Nat) (ctx : List α) (resp : α)
    (lc : Nat) (neg : α) (buf : List α) (rand : List Nat) :
    retryLoop bsz ctx resp (lc + 1) neg buf rand =
      if neg ∈ ctx ∨ neg = resp then
        match dequePop (dequeRotate (dequeAppend bsz buf neg) (nextRand rand).1) with
        | none => .error (.rawPop, dequeRotate (dequeAppend bsz buf neg) (nextRand rand).1,
            (nextRand rand).2, lc + 1)
        | some p => retryLoop bsz ctx resp lc p.1 p.2 (nextRand rand).2
      else .ok (neg, buf, rand, lc + 1) := rfl

theorem retryLoop_ok_of_pos [DecidableEq α] (bsz : Nat) (ctx : List α) (resp : α)
    (hm : 0 < bsz) :
    ∀ (lc : Nat) (neg : α) (buf : List α) (rand : List Nat),
      ∃ q, retryLoop bsz ctx resp lc neg buf rand = .ok q := by
  intro lc
  induction lc with
  | zero => intro neg buf rand; exact ⟨_, retryLoop_zero bsz ctx resp neg buf rand⟩
  | succ n ih =>
    intro neg buf rand
    rw [retryLoop_succ]
    by_cases hcol : neg ∈ ctx ∨ neg = resp
    · rw [if_pos hcol]
      cases hp : dequePop (dequeRotate (dequeAppend bsz buf neg) (nextRand rand).1) with
      | none =>
        exact absurd ((dequePop_eq_none _).mp hp)
          (dequeRotate_ne_nil _ _ (dequeAppend_ne_nil bsz hm buf neg))
      | some p =>
        simp only [hp]
        exact ih p.1 p.2 (nextRand rand).2
    · rw [if_neg hcol]
      exact ⟨_, rfl⟩

theorem retryLoop_error_rawPop [DecidableEq α] (bsz : Nat) (ctx : List α) (resp : α) :
    ∀ (lc : Nat) (neg : α) (buf : List α) (rand : List Nat) (e : Err × List α × List Nat × Nat),
      retryLoop bsz ctx resp lc neg buf rand = .error e → e.1 = .rawPop := by
  intro lc
  induction lc with
  | zero =>
    intro neg buf rand e he
    rw [retryLoop_zero] at he
    exact Except.noConfusion he
  | succ n ih =>
    intro neg buf rand e he
    rw [retryLoop_succ] at he
    by_cases hcol : neg ∈ ctx ∨ neg = resp
    · rw [if_pos hcol] at he
      cases hp : dequePop (dequeRotate (dequeAppend bsz buf neg) (nextRand rand).1) with
      | none =>
        rw [hp] at he
        cases he
        rfl
      | some p =>
        rw [hp] at he
        exact ih p.1 p.2 (nextRand rand).2 e he
    · rw [if_neg hcol] at he
      exact Except.noConfusion he

theorem retryLoop_ok_acceptable [DecidableEq α] (bsz : Nat) (ctx : List α) (resp : α) :
    ∀ (lc : Nat) (neg : α) (buf : List α) (rand : List Nat) (q : α × List α × List Nat × Nat),
      retryLoop bsz ctx resp lc neg buf rand = .ok q → q.2.2.2 ≠ 0 →
      q.1 ∉ ctx ∧ q.1 ≠ resp := by
  intro lc
  induction lc with
  | zero =>
    intro neg buf rand q hq hne
    rw [retryLoop_zero] at hq
    cases hq
    simp at hne
  | succ n ih =>
    intro neg buf rand q hq hne
    rw [retryLoop_succ] at hq
    by_cases hcol : neg ∈ ctx ∨ neg = resp
    · rw [if_pos hcol] at hq
      cases hp : dequePop (dequeRotate (dequeAppend bsz buf neg) (nextRand rand).1) with
      | none =>
        rw [hp] at hq
        exact Except.noConfusion hq
      | some p =>
        rw [hp] at hq
        exact ih p.1 p.2 (nextRand rand).2 q hq hne
    · rw [if_neg hcol] at hq
      cases hq
      push_neg at hcol
      exact hcol

theorem retryLoop_buf_length [DecidableEq α] (bsz : Nat) (ctx : List α) (resp : α) :
    ∀ (lc : Nat) (neg : α) (buf : List α) (rand : List Nat), buf.length ≤ bsz →
      (∀ q, retryLoop bsz ctx resp lc neg buf rand = .ok q → q.2.1.length ≤ bsz) ∧
      (∀ e, retryLoop bsz ctx resp lc neg buf rand = .error e → e.2.1.length ≤ bsz) := by
  intro lc
  induction lc with
  | zero =>
    intro neg buf rand hb
    refine ⟨fun q hq => ?_, fun e he => ?_⟩
    · rw [retryLoop_zero] at hq; cases hq; exact hb
    · rw [retryLoop_zero] at he; exact Except.noConfusion he
  | succ n ih =>
    intro neg buf rand hb
    have hrot : (dequeRotate (dequeAppend bsz buf neg) (nextRand rand).1).length ≤ bsz := by
      rw [dequeRotate_length]; exact dequeAppend_length_le bsz buf neg
    by_cases hcol : neg ∈ ctx ∨ neg = resp
    · cases hp : dequePop (dequeRotate (dequeAppend bsz buf neg) (nextRand rand).1) with
      | none =>
        refine ⟨fun q hq => ?_, fun e he => ?_⟩
        · rw [retryLoop_succ, if_pos hcol, hp] at hq; exact Except.noConfusion hq
        · rw [retryLoop_succ, if_pos hcol, hp] at he; cases he; exact hrot
      | some p =>
        have hple : p.2.length ≤ bsz := by
          have := dequePop_some_length _ p hp
          omega
        refine ⟨fun q hq => ?_, fun e he => ?_⟩
        · rw [retryLoop_succ, if_pos hcol, hp] at hq
          exact (ih p.1 p.2 (nextRand rand).2 hple).1 q hq
        · rw [retryLoop_succ, if_pos hcol, hp] at he
          exact (ih p.1 p.2 (nextRand rand).2 hple).2 e he
    · refine ⟨fun q hq => ?_, fun e he => ?_⟩
      · rw [retryLoop_succ, if_neg hcol] at hq; cases hq; exact hb
      · rw [retryLoop_succ, if_neg hcol] at he; exact Except.noConfusion he

/-! ## Single-draw lemmas -/

theorem drawNegative_eq [DecidableEq α] (bsz : Nat) (ctx : List α) (resp : α)
    (buf : List α) (rand : List Nat) (lc : Nat) :
    drawNegative bsz ctx resp buf rand lc =
      match dequePop (dequeRotate buf (nextRand rand).1) with
      | none => .error (.emptyPop, dequeRotate buf (nextRand rand).1, (nextRand rand).2, lc)
      | some p =>
        match retryLoop bsz ctx resp lc p.1 p.2 (nextRand rand).2 with
        | .error e => .error e
        | .ok q =>
          if q.2.2.2 = 0 then .error (.deadlock, q.2.1, q.2.2.1, q.2.2.2) else .ok q := rfl

theorem drawNegative_ok [DecidableEq α] (bsz : Nat) (ctx : List α) (resp : α)
    (buf : List α) (rand : List Nat) (lc : Nat) (q : α × List α × List Nat × Nat)
    (h : drawNegative bsz ctx resp buf rand lc = .ok q) :
    q.2.2.2 ≠ 0 ∧ q.1 ∉ ctx ∧ q.1 ≠ resp := by
  rw [drawNegative_eq] at h
  split at h
  · exact Except.noConfusion h
  · rename_i p hp
    split at h
    · exact Except.noConfusion h
    · rename_i q' hr
      split at h
      · exact Except.noConfusion h
      · rename_i hz
        cases h
        exact ⟨hz, retryLoop_ok_acceptable bsz ctx resp lc p.1 p.2 (nextRand rand).2 q hr hz⟩

theorem drawNegative_deadlock [DecidableEq α] (bsz : Nat) (ctx : List α) (resp : α)
    (buf : List α) (rand : List Nat) (lc : Nat) (e : Err × List α × List Nat × Nat)
    (h : drawNegative bsz ctx resp buf rand lc = .error e) (hd : e.1 = .deadlock) :
    e.2.2.2 = 0 := by
  rw [drawNegative_eq] at h
  split at h
  · cases h
    exact absurd hd (by simp)
  · rename_i p hp
    split at h
    · rename_i e' hr
      cases h
      have := retryLoop_error_rawPop bsz ctx resp lc p.1 p.2 (nextRand rand).2 e hr
      rw [this] at hd
      exact absurd hd (by simp)
    · rename_i q' hr
      split at h
      · rename_i hz
        cases h
        exact hz
      · exact Except.noConfusion h

theorem drawNegative_no_rawPop [DecidableEq α] (bsz : Nat) (ctx : List α) (resp : α)
    (hm : 0 < bsz) (buf : List α) (rand : List Nat) (lc : Nat)
    (e : Err × List α × List Nat × Nat)
    (h : drawNegative bsz ctx resp buf rand lc = .error e) : e.1 ≠ .rawPop := by
  rw [drawNegative_eq] at h
  split at h
  · cases h
    simp
  · rename_i p hp
    split at h
    · rename_i e' hr
      obtain ⟨q, hq⟩ := retryLoop_ok_of_pos bsz ctx resp hm lc p.1 p.2 (nextRand rand).2
      rw [hq] at hr
      exact Except.noConfusion hr
    · rename_i q' hr
      split at h
      · cases h
        simp
      · exact Except.noConfusion h

theorem drawNegative_emptyPop_iff [DecidableEq α] (bsz : Nat) (ctx : List α) (resp : α)
    (hm : 0 < bsz) (buf : List α) (rand : List Nat) (lc : Nat) :
    (∃ b r l, drawNegative bsz ctx resp buf rand lc = .error (.emptyPop, b, r, l)) ↔ buf = [] := by
  constructor
  · rintro ⟨b, r, l, h⟩
    by_contra hne
    rw [drawNegative_eq] at h
    split at h
    · rename_i hp
      exact absurd ((dequePop_eq_none _).mp hp) (dequeRotate_ne_nil buf _ hne)
    · rename_i p hp
      split at h
      · rename_i e' hr
        obtain ⟨q, hq⟩ := retryLoop_ok_of_pos bsz ctx resp hm lc p.1 p.2 (nextRand rand).2
        rw [hq] at hr
        exact Except.noConfusion hr
      · rename_i q' hr
        split at h
        · cases h
        · exact Except.noConfusion h
  · intro hb
    subst hb
    exact ⟨_, _, _, rfl⟩

theorem drawNegative_buf_length [DecidableEq α] (bsz : Nat) (ctx : List α) (resp : α)
    (buf : List α) (rand : List Nat) (lc : Nat) (hb : buf.length ≤ bsz) :
    (∀ q, drawNegative bsz ctx resp buf rand lc = .ok q → q.2.1.length ≤ bsz) ∧
    (∀ e, drawNegative bsz ctx resp buf rand lc = .error e → e.2.1.length ≤ bsz) := by
  have hrot : (dequeRotate buf (nextRand rand).1).length ≤ bsz := by
    rw [dequeRotate_length]; exact hb
  refine ⟨fun q hq => ?_, fun e he => ?_⟩
  · rw [drawNegative_eq] at hq
    split at hq
    · exact Except.noConfusion hq
    · rename_i p hp
      have hple : p.2.length ≤ bsz := by
        have := dequePop_some_length _ p hp
        omega
      have hrl := retryLoop_buf_length bsz ctx resp lc p.1 p.2 (nextRand rand).2 hple
      split at hq
      · exact Except.noConfusion hq
      · rename_i q' hr
        split at hq
        · exact Except.noConfusion hq
        · cases hq
          exact hrl.1 q hr
  · rw [drawNegative_eq] at he
    split at he
    · cases he
      exact hrot
    · rename_i p hp
      have hple : p.2.length ≤ bsz := by
        have := dequePop_some_length _ p hp
        omega
      have hrl := retryLoop_buf_length bsz ctx resp lc p.1 p.2 (nextRand rand).2 hple
      split at he
      · rename_i e' hr
        cases he
        exact hrl.2 e hr
      · rename_i q' hr
        split at he
        · cases he
          exact hrl.1 q' hr
        · exact Except.noConfusion he

/-! ## Draw-sequence lemmas -/

theorem drawNegatives_zero [DecidableEq α] (bsz : Nat) (ctx : List α) (resp : α)
    (buf : List α) (rand : List Nat) (lc : Nat) :
    drawNegatives bsz ctx resp 0 buf rand lc = ([], buf, rand, lc, none) := rfl

theorem drawNegatives_succ [DecidableEq α] (bsz : Nat) (ctx : List α) (resp : α)
    (n : Nat) (buf : List α) (rand : List Nat) (lc : Nat) :
    drawNegatives bsz ctx resp (n + 1) buf rand lc =
      match drawNegative bsz ctx resp buf rand lc with
      | .error e => ([], e.2.1, e.2.2.1, e.2.2.2, some e.1)
      | .ok q =>
        (⟨ctx, q.1, 0⟩ :: (drawNegatives bsz ctx resp n q.2.1 q.2.2.1 q.2.2.2).1,
         (drawNegatives bsz ctx resp n q.2.1 q.2.2.1 q.2.2.2).2) := rfl

theorem drawNegatives_sound [DecidableEq α] (bsz : Nat) (ctx : List α) (resp : α) :
    ∀ (n : Nat) (buf : List α) (rand : List Nat) (lc : Nat) (p : Pair α),
      p ∈ (drawNegatives bsz ctx resp n buf rand lc).1 →
      p.context = ctx ∧ p.label = 0 ∧ p.response ∉ ctx ∧ p.response ≠ resp := by
  intro n
  induction n with
  | zero =>
    intro buf rand lc p hp
    rw [drawNegatives_zero] at hp
    simp at hp
  | succ m ih =>
    intro buf rand lc p hp
    rw [drawNegatives_succ] at hp
    split at hp
    · simp at hp
    · rename_i q hq
      simp only [List.mem_cons] at hp
      cases hp with
      | inl h =>
        subst h
        have hok := drawNegative_ok bsz ctx resp buf rand lc q hq
        exact ⟨rfl, rfl, hok.2.1, hok.2.2⟩
      | inr h => exact ih q.2.1 q.2.2.1 q.2.2.2 p h

theorem drawNegatives_none [DecidableEq α] (bsz : Nat) (ctx : List α) (resp : α) :
    ∀ (n : Nat) (buf : List α) (rand : List Nat) (lc : Nat),
      (drawNegatives bsz ctx resp n buf rand lc).2.2.2.2 = none →
      ∃ negs : List α, (drawNegatives bsz ctx resp n buf rand lc).1 =
          negs.map (fun x => ⟨ctx, x, 0⟩) ∧ negs.length = n := by
  intro n
  induction n with
  | zero =>
    intro buf rand lc _
    exact ⟨[], rfl, rfl⟩
  | succ m ih =>
    intro buf rand lc hnone
    cases hd : drawNegative bsz ctx resp buf rand lc with
    | error e =>
      simp only [drawNegatives_succ, hd] at hnone
      exact Option.noConfusion hnone
    | ok q =>
      simp only [drawNegatives_succ, hd] at hnone ⊢
      obtain ⟨negs, h1, h2⟩ := ih q.2.1 q.2.2.1 q.2.2.2 hnone
      exact ⟨q.1 :: negs, by simp [h1], by simp [h2]⟩

theorem drawNegatives_buf_length [DecidableEq α] (bsz : Nat) (ctx : List α) (resp : α) :
    ∀ (n : Nat) (buf : List α) (rand : List Nat) (lc : Nat), buf.length ≤ bsz →
      (drawNegatives bsz ctx resp n buf rand lc).2.1.length ≤ bsz := by
  intro n
  induction n with
  | zero =>
    intro buf rand lc hb
    exact hb
  | succ m ih =>
    intro buf rand lc hb
    cases hd : drawNegative bsz ctx resp buf rand lc with
    | error e =>
      simp only [drawNegatives_succ, hd]
      exact (drawNegative_buf_length bsz ctx resp buf rand lc hb).2 e hd
    | ok q =>
      simp only [drawNegatives_succ, hd]
      exact ih q.2.1 q.2.2.1 q.2.2.2
        ((drawNegative_buf_length bsz ctx resp buf rand lc hb).1 q hd)

/-! ## Window lemmas -/

theorem windows_cons (cs : Nat) (u : α) (us : List α) :
    windows cs (u :: us) =
      if h : cs < (u :: us).length then
        ((u :: us).take cs, (u :: us).get ⟨cs, h⟩) :: windows cs us
      else [] := rfl

theorem windows_length (cs : Nat) : ∀ d : List α, (windows cs d).length = d.length - cs := by
  intro d
  induction d with
  | nil => simp [windows]
  | cons u us ih =>
    by_cases h : cs < (u :: us).length
    · rw [windows_cons, dif_pos h]
      simp only [List.length_cons, ih]
      simp only [List.length_cons] at h
      omega
    · rw [windows_cons, dif_neg h]
      simp only [List.length_cons] at h ⊢
      simp only [List.length_nil]
      omega

theorem windows_getElem (cs : Nat) :
    ∀ (d : List α) (i : Nat) (r : α), d[i + cs]? = some r →
      (windows cs d)[i]? = some ((d.drop i).take cs, r) := by
  intro d
  induction d with
  | nil =>
    intro i r hr
    simp at hr
  | cons u us ih =>
    intro i r hr
    have hlt : i + cs < (u :: us).length := (List.getElem?_eq_some.mp hr).1
    have hcs : cs < (u :: us).length := by omega
    rw [windows_cons, dif_pos hcs]
    cases i with
    | zero =>
      simp only [Nat.zero_add] at hr
      obtain ⟨h1, h2⟩ := List.getElem?_eq_some.mp hr
      simp only [List.getElem?_cons_zero, List.drop_zero, Option.some.injEq, Prod.mk.injEq]
      exact ⟨trivial, by rw [List.get_eq_getElem]; exact h2⟩
    | succ j =>
      have heq : j + 1 + cs = (j + cs) + 1 := by omega
      rw [heq, List.getElem?_cons_succ] at hr
      rw [List.getElem?_cons_succ, ih j r hr, List.drop_succ_cons]


/-! ## create_pairs lemmas -/

theorem create_pairs_go_nil [DecidableEq α] (cs bsz n : Nat) (buf : List α) (rand : List Nat) :
    create_pairs_go cs bsz n [] buf rand = ([], buf, rand, none) := rfl

theorem create_pairs_go_cons [DecidableEq α] (cs bsz n : Nat) (u : α) (us buf : List α)
    (rand : List Nat) :
    create_pairs_go cs bsz n (u :: us) buf rand =
      if h : cs < (u :: us).length then
        match (drawNegatives bsz ((u :: us).take cs) ((u :: us).get ⟨cs, h⟩) n buf rand
            buf.length).2.2.2.2 with
        | some e =>
          ((drawNegatives bsz ((u :: us).take cs) ((u :: us).get ⟨cs, h⟩) n buf rand
              buf.length).1,
           (drawNegatives bsz ((u :: us).take cs) ((u :: us).get ⟨cs, h⟩) n buf rand
              buf.length).2.1,
           (drawNegatives bsz ((u :: us).take cs) ((u :: us).get ⟨cs, h⟩) n buf rand
              buf.length).2.2.1,
           some e)
        | none =>
          ((drawNegatives bsz ((u :: us).take cs) ((u :: us).get ⟨cs, h⟩) n buf rand
              buf.length).1 ++
             ⟨(u :: us).take cs, (u :: us).get ⟨cs, h⟩, 1⟩ ::
               (create_pairs_go cs bsz n us
                 (drawNegatives bsz ((u :: us).take cs) ((u :: us).get ⟨cs, h⟩) n buf rand
                    buf.length).2.1
                 (drawNegatives bsz ((u :: us).take cs) ((u :: us).get ⟨cs, h⟩) n buf rand
                    buf.length).2.2.1).1,
           (create_pairs_go cs bsz n us
             (drawNegatives bsz ((u :: us).take cs) ((u :: us).get ⟨cs, h⟩) n buf rand
                buf.length).2.1
             (drawNegatives bsz ((u :: us).take cs) ((u :: us).get ⟨cs, h⟩) n buf rand
                buf.length).2.2.1).2)
      else ([], buf, rand, none) := by
  show create_pairs_go cs bsz n (u :: us) buf rand = _
  rw [create_pairs_go]
  by_cases h : cs < (u :: us).length
  · rw [dif_pos h, dif_pos h]
    generalize drawNegatives bsz ((u :: us).take cs) ((u :: us).get ⟨cs, h⟩) n buf rand
      buf.length = t
    obtain ⟨ps, buf1, rand1, lc1, err⟩ := t
    cases err <;> rfl
  · rw [dif_neg h, dif_neg h]

theorem create_pairs_go_groups [DecidableEq α] (cs bsz n : Nat) :
    ∀ (d buf : List α) (rand : List Nat),
      ∃ groups : List (List (Pair α)),
        (create_pairs_go cs bsz n d buf rand).1 = groups.flatten ∧
        groups.length ≤ (windows cs d).length ∧
        List.Forall₂ (fun (w : List α × α) (g : List (Pair α)) =>
            ∀ p ∈ g, p.context = w.1 ∧
              (p.label = 0 → p.response ∉ w.1 ∧ p.response ≠ w.2) ∧
              (p.label = 1 → p.response = w.2))
          ((windows cs d).take groups.length) groups := by
  intro d
  induction d with
  | nil =>
    intro buf rand
    exact ⟨[], rfl, by simp, by simp⟩
  | cons u us ih =>
    intro buf rand
    by_cases h : cs < (u :: us).length
    · cases herr : (drawNegatives bsz ((u :: us).take cs) ((u :: us).get ⟨cs, h⟩) n buf rand
          buf.length).2.2.2.2 with
      | some e =>
        refine ⟨[(drawNegatives bsz ((u :: us).take cs) ((u :: us).get ⟨cs, h⟩) n buf rand
            buf.length).1], ?_, ?_, ?_⟩
        · rw [create_pairs_go_cons, dif_pos h, herr]
          simp
        · rw [windows_cons, dif_pos h]
          simp
        · rw [windows_cons, dif_pos h]
          simp only [List.length_singleton, List.take_succ_cons, List.take_zero]
          refine List.forall₂_cons.mpr ⟨?_, List.Forall₂.nil⟩
          intro p hp
          have hs := drawNegatives_sound bsz _ _ n buf rand buf.length p hp
          refine ⟨hs.1, fun _ => ⟨hs.2.2.1, hs.2.2.2⟩, fun h1 => ?_⟩
          rw [hs.2.1] at h1
          exact absurd h1 (by decide)
      | none =>
        obtain ⟨groups', hg1, hg2, hg3⟩ :=
          ih (drawNegatives bsz ((u :: us).take cs) ((u :: us).get ⟨cs, h⟩) n buf rand
              buf.length).2.1
            (drawNegatives bsz ((u :: us).take cs) ((u :: us).get ⟨cs, h⟩) n buf rand
              buf.length).2.2.1
        refine ⟨((drawNegatives bsz ((u :: us).take cs) ((u :: us).get ⟨cs, h⟩) n buf rand
            buf.length).1 ++
            [⟨(u :: us).take cs, (u :: us).get ⟨cs, h⟩, 1⟩]) :: groups', ?_, ?_, ?_⟩
        · rw [create_pairs_go_cons, dif_pos h, herr]
          rw [List.flatten_cons, hg1]
          simp
        · rw [windows_cons, dif_pos h]
          simp only [List.length_cons]
          omega
        · rw [windows_cons, dif_pos h]
          simp only [List.length_cons, List.take_succ_cons]
          refine List.forall₂_cons.mpr ⟨?_, hg3⟩
          intro p hp
          rcases List.mem_append.mp hp with hneg | hpos
          · have hs := drawNegatives_sound bsz _ _ n buf rand buf.length p hneg
            refine ⟨hs.1, fun _ => ⟨hs.2.2.1, hs.2.2.2⟩, fun h1 => ?_⟩
            rw [hs.2.1] at h1
            exact absurd h1 (by decide)
          · rw [List.mem_singleton] at hpos
            subst hpos
            exact ⟨rfl, fun h0 => absurd h0 (by simp), fun _ => rfl⟩
    · refine ⟨[], ?_, by simp, by simp⟩
      rw [create_pairs_go_cons, dif_neg h]
      rfl

theorem create_pairs_go_structure [DecidableEq α] (cs bsz n : Nat) :
    ∀ (d buf : List α) (rand : List Nat),
      (create_pairs_go cs bsz n d buf rand).2.2.2 = none →
      ∃ negss : List (List α),
        negss.length = (windows cs d).length ∧
        (∀ gs ∈ negss, gs.length = n) ∧
        (create_pairs_go cs bsz n d buf rand).1 =
          (List.zipWith (fun (w : List α × α) (negs : List α) =>
              negs.map (fun x => ⟨w.1, x, 0⟩) ++ [⟨w.1, w.2, 1⟩])
            (windows cs d) negss).flatten := by
  intro d
  induction d with
  | nil =>
    intro buf rand _
    exact ⟨[], rfl, by simp, by rw [create_pairs_go_nil]; simp [windows]⟩
  | cons u us ih =>
    intro buf rand hnone
    by_cases h : cs < (u :: us).length
    · cases herr : (drawNegatives bsz ((u :: us).take cs) ((u :: us).get ⟨cs, h⟩) n buf rand
          buf.length).2.2.2.2 with
      | some e =>
        rw [create_pairs_go_cons, dif_pos h] at hnone
        simp only [herr] at hnone
        exact Option.noConfusion hnone
      | none =>
        rw [create_pairs_go_cons, dif_pos h] at hnone
        simp only [herr] at hnone
        obtain ⟨negss', k1, k2, k3⟩ :=
          ih (drawNegatives bsz ((u :: us).take cs) ((u :: us).get ⟨cs, h⟩) n buf rand
              buf.length).2.1
            (drawNegatives bsz ((u :: us).take cs) ((u :: us).get ⟨cs, h⟩) n buf rand
              buf.length).2.2.1 hnone
        obtain ⟨negs, m1, m2⟩ := drawNegatives_none bsz _ _ n buf rand buf.length herr
        refine ⟨negs :: negss', ?_, ?_, ?_⟩
        · rw [windows_cons, dif_pos h]
          simp [k1]
        · intro gs hgs
          rcases List.mem_cons.mp hgs with h1 | h2
          · rw [h1]; exact m2
          · exact k2 gs h2
        · rw [create_pairs_go_cons, dif_pos h]
          simp only [herr]
          rw [windows_cons, dif_pos h, List.zipWith_cons_cons, List.flatten_cons, m1, k3]
          simp
    · rw [create_pairs_go_cons, dif_neg h] at hnone ⊢
      exact ⟨[], by rw [windows_cons, dif_neg h]; rfl, by simp,
        by rw [windows_cons, dif_neg h]; simp⟩

theorem create_pairs_go_buf_length [DecidableEq α] (cs bsz n : Nat) :
    ∀ (d buf : List α) (rand : List Nat), buf.length ≤ bsz →
      (create_pairs_go cs bsz n d buf rand).2.1.length ≤ bsz := by
  intro d
  induction d with
  | nil =>
    intro buf rand hb
    exact hb
  | cons u us ih =>
    intro buf rand hb
    by_cases h : cs < (u :: us).length
    · rw [create_pairs_go_cons, dif_pos h]
      have hdn := drawNegatives_buf_length bsz ((u :: us).take cs) ((u :: us).get ⟨cs, h⟩)
        n buf rand buf.length hb
      cases herr : (drawNegatives bsz ((u :: us).take cs) ((u :: us).get ⟨cs, h⟩) n buf rand
          buf.length).2.2.2.2 with
      | some e =>
        simp only [herr]
        exact hdn
      | none =>
        simp only [herr]
        exact ih _ _ hdn
    · rw [create_pairs_go_cons, dif_neg h]
      exact hb

/-! ## Call-level equations -/

theorem call_warmup [DecidableEq α] (fuel : Nat) (s : ContextResponse α) (d : List α)
    (hw : (bufAfterCarry s).length < s.buffer_size) :
    ContextResponse.call fuel s d =
      ([], { s with counter := s.counter + 1
                    buffer := warmupFillGo s.buffer_size (bufAfterCarry s) d.reverse
                    prev_utterances := newCarry s d
                    initial_samples := s.initial_samples ++ [d] }, none) := by
  unfold ContextResponse.call
  rw [if_pos hw]

theorem call_steady [DecidableEq α] (fuel : Nat) (s : ContextResponse α) (d : List α)
    (hw : ¬ (bufAfterCarry s).length < s.buffer_size)
    (hc : ¬ s.counter + 1 = s.total_dialogues) :
    ContextResponse.call fuel s d =
      ContextResponse.create_pairs
        { s with counter := s.counter + 1
                 buffer := bufAfterCarry s
                 prev_utterances := newCarry s d } d := by
  unfold ContextResponse.call
  rw [if_neg hw, if_neg hc]

theorem call_flush [DecidableEq α] (f : Nat) (s : ContextResponse α) (d : List α)
    (hw : ¬ (bufAfterCarry s).length < s.buffer_size)
    (hc : s.counter + 1 = s.total_dialogues) :
    ContextResponse.call (f + 1) s d =
      callList f
        { s with counter := 0
                 buffer := bufAfterCarry s
                 prev_utterances := newCarry s d
                 initial_samples := [] }
        (d :: s.initial_samples) := by
  unfold ContextResponse.call
  rw [if_neg hw, if_pos hc]
  rfl

theorem call_flush_zero [DecidableEq α] (s : ContextResponse α) (d : List α)
    (hw : ¬ (bufAfterCarry s).length < s.buffer_size)
    (hc : s.counter + 1 = s.total_dialogues) :
    ContextResponse.call 0 s d =
      ([], { s with counter := s.counter + 1
                    buffer := bufAfterCarry s
                    prev_utterances := newCarry s d }, some .fuel) := by
  unfold ContextResponse.call
  rw [if_neg hw, if_pos hc]

theorem create_pairs_eq [DecidableEq α] (s : ContextResponse α) (d : List α) :
    ContextResponse.create_pairs s d =
      ((create_pairs_go s.context_size s.buffer_size s.num_negative d s.buffer s.rand).1,
       { s with buffer := (create_pairs_go s.context_size s.buffer_size s.num_negative d
             s.buffer s.rand).2.1
                rand := (create_pairs_go s.context_size s.buffer_size s.num_negative d
             s.buffer s.rand).2.2.1
                processed := s.processed ++ [d] },
       (create_pairs_go s.context_size s.buffer_size s.num_negative d s.buffer s.rand).2.2.2) := by
  unfold ContextResponse.create_pairs
  generalize create_pairs_go s.context_size s.buffer_size s.num_negative d s.buffer s.rand = t
  obtain ⟨ps, buf, rand, err⟩ := t
  rfl

/-! ## callList lemmas -/

theorem callList_nil [DecidableEq α] (fuel : Nat) (s : ContextResponse α) :
    callList fuel s [] = ([], s, none) := rfl

theorem seqStep_none [DecidableEq α]
    (call1 : ContextResponse α → List α → List (Pair α) × ContextResponse α × Option Err)
    (a : List (Pair α)) (st : ContextResponse α) (d : List α) :
    seqStep call1 (a, st, none) d = (a ++ (call1 st d).1, (call1 st d).2) := by
  show (match call1 st d with
        | (ps2, st2, oe) => (a ++ ps2, st2, oe)) = (a ++ (call1 st d).1, (call1 st d).2)
  generalize call1 st d = t
  obtain ⟨ps2, st2, oe⟩ := t
  rfl

theorem seqStep_foldl_error [DecidableEq α]
    (call1 : ContextResponse α → List α → List (Pair α) × ContextResponse α × Option Err)
    (ps : List (Pair α)) (st : ContextResponse α) (e : Err) :
    ∀ ds : List (List α), ds.foldl (seqStep call1) (ps, st, some e) = (ps, st, some e) := by
  intro ds
  induction ds with
  | nil => rfl
  | cons d ds ih =>
    simp only [List.foldl_cons]
    exact ih

theorem foldl_seqStep_acc [DecidableEq α]
    (call1 : ContextResponse α → List α → List (Pair α) × ContextResponse α × Option Err) :
    ∀ (ds : List (List α)) (ps : List (Pair α)) (st : ContextResponse α),
      ds.foldl (seqStep call1) (ps, st, none) =
        (ps ++ (ds.foldl (seqStep call1) ([], st, none)).1,
         (ds.foldl (seqStep call1) ([], st, none)).2) := by
  intro ds
  induction ds with
  | nil =>
    intro ps st
    simp
  | cons d ds ih =>
    intro ps st
    simp only [List.foldl_cons, seqStep_none, List.nil_append]
    cases hoe : (call1 st d).2.2 with
    | some e =>
      have h2 : (call1 st d).2 = ((call1 st d).2.1, some e) := by rw [← hoe]
      rw [h2, seqStep_foldl_error, seqStep_foldl_error]
    | none =>
      have h2 : (call1 st d).2 = ((call1 st d).2.1, none) := by rw [← hoe]
      rw [h2, ih ((call1 st d).1) ((call1 st d).2.1),
        ih (ps ++ (call1 st d).1) ((call1 st d).2.1)]
      simp

theorem callList_cons_ok [DecidableEq α] (fuel : Nat) (s : ContextResponse α)
    (d : List α) (ds : List (List α))
    (hoe : (ContextResponse.call fuel s d).2.2 = none) :
    callList fuel s (d :: ds) =
      ((ContextResponse.call fuel s d).1 ++
         (callList fuel (ContextResponse.call fuel s d).2.1 ds).1,
       (callList fuel (ContextResponse.call fuel s d).2.1 ds).2) := by
  unfold callList
  simp only [List.foldl_cons, seqStep_none, List.nil_append]
  have h2 : (ContextResponse.call fuel s d).2 =
      ((ContextResponse.call fuel s d).2.1, none) := by rw [← hoe]
  rw [h2]
  exact foldl_seqStep_acc _ ds (ContextResponse.call fuel s d).1
    (ContextResponse.call fuel s d).2.1

theorem callList_cons_error [DecidableEq α] (fuel : Nat) (s : ContextResponse α)
    (d : List α) (ds : List (List α)) (e : Err)
    (hoe : (ContextResponse.call fuel s d).2.2 = some e) :
    callList fuel s (d :: ds) =
      ((ContextResponse.call fuel s d).1, (ContextResponse.call fuel s d).2.1, some e) := by
  unfold callList
  simp only [List.foldl_cons, seqStep_none, List.nil_append]
  have h2 : (ContextResponse.call fuel s d).2 =
      ((ContextResponse.call fuel s d).2.1, some e) := by rw [← hoe]
  rw [h2, seqStep_foldl_error]

/-! ## Invariant preservation and dialogue conservation -/

theorem bufAfterCarry_le [DecidableEq α] (s : ContextResponse α)
    (hb : s.buffer.length ≤ s.buffer_size) : (bufAfterCarry s).length ≤ s.buffer_size :=
  dequeExtend_length_le _ _ _ hb

theorem warmupFill_le (bsz : Nat) (buf r : List α) (hb : buf.length ≤ bsz) :
    (warmupFillGo bsz buf r).length ≤ bsz := by
  rw [warmupFillGo_eq]
  simp only [List.length_append, List.length_take]
  omega

theorem call_buffer_invariant [DecidableEq α] :
    ∀ (fuel : Nat),
      (∀ (s : ContextResponse α) (d : List α), s.buffer.length ≤ s.buffer_size →
        (ContextResponse.call fuel s d).2.1.buffer.length ≤
          (ContextResponse.call fuel s d).2.1.buffer_size ∧
        (ContextResponse.call fuel s d).2.1.buffer_size = s.buffer_size) ∧
      (∀ (ds : List (List α)) (s : ContextResponse α), s.buffer.length ≤ s.buffer_size →
        (callList fuel s ds).2.1.buffer.length ≤ (callList fuel s ds).2.1.buffer_size ∧
        (callList fuel s ds).2.1.buffer_size = s.buffer_size) := by
  intro fuel
  induction fuel with
  | zero =>
    have hcall : ∀ (s : ContextResponse α) (d : List α), s.buffer.length ≤ s.buffer_size →
        (ContextResponse.call 0 s d).2.1.buffer.length ≤
          (ContextResponse.call 0 s d).2.1.buffer_size ∧
        (ContextResponse.call 0 s d).2.1.buffer_size = s.buffer_size := by
      intro s d hb
      by_cases hw : (bufAfterCarry s).length < s.buffer_size
      · rw [call_warmup 0 s d hw]
        exact ⟨warmupFill_le s.buffer_size (bufAfterCarry s) d.reverse (bufAfterCarry_le s hb),
          rfl⟩
      · by_cases hc : s.counter + 1 = s.total_dialogues
        · rw [call_flush_zero s d hw hc]
          exact ⟨bufAfterCarry_le s hb, rfl⟩
        · rw [call_steady 0 s d hw hc, create_pairs_eq]
          exact ⟨create_pairs_go_buf_length s.context_size s.buffer_size s.num_negative d
            (bufAfterCarry s) s.rand (bufAfterCarry_le s hb), rfl⟩
    refine ⟨hcall, ?_⟩
    intro ds
    induction ds with
    | nil =>
      intro s hb
      exact ⟨hb, rfl⟩
    | cons d ds ih =>
      intro s hb
      cases hoe : (ContextResponse.call 0 s d).2.2 with
      | none =>
        rw [callList_cons_ok 0 s d ds hoe]
        have h1 := hcall s d hb
        have h2 := ih (ContextResponse.call 0 s d).2.1 h1.1
        exact ⟨h2.1, by rw [h2.2, h1.2]⟩
      | some e =>
        rw [callList_cons_error 0 s d ds e hoe]
        exact hcall s d hb
  | succ f ihf =>
    have hcall : ∀ (s : ContextResponse α) (d : List α), s.buffer.length ≤ s.buffer_size →
        (ContextResponse.call (f + 1) s d).2.1.buffer.length ≤
          (ContextResponse.call (f + 1) s d).2.1.buffer_size ∧
        (ContextResponse.call (f + 1) s d).2.1.buffer_size = s.buffer_size := by
      intro s d hb
      by_cases hw : (bufAfterCarry s).length < s.buffer_size
      · rw [call_warmup (f + 1) s d hw]
        exact ⟨warmupFill_le s.buffer_size (bufAfterCarry s) d.reverse (bufAfterCarry_le s hb),
          rfl⟩
      · by_cases hc : s.counter + 1 = s.total_dialogues
        · rw [call_flush f s d hw hc]
          exact ihf.2 (d :: s.initial_samples)
            { s with counter := 0
                     buffer := bufAfterCarry s
                     prev_utterances := newCarry s d
                     initial_samples := [] }
            (bufAfterCarry_le s hb)
        · rw [call_steady (f + 1) s d hw hc, create_pairs_eq]
          exact ⟨create_pairs_go_buf_length s.context_size s.buffer_size s.num_negative d
            (bufAfterCarry s) s.rand (bufAfterCarry_le s hb), rfl⟩
    refine ⟨hcall, ?_⟩
    intro ds
    induction ds with
    | nil =>
      intro s hb
      exact ⟨hb, rfl⟩
    | cons d ds ih =>
      intro s hb
      cases hoe : (ContextResponse.call (f + 1) s d).2.2 with
      | none =>
        rw [callList_cons_ok (f + 1) s d ds hoe]
        have h1 := hcall s d hb
        have h2 := ih (ContextResponse.call (f + 1) s d).2.1 h1.1
        exact ⟨h2.1, by rw [h2.2, h1.2]⟩
      | some e =>
        rw [callList_cons_error (f + 1) s d ds e hoe]
        exact hcall s d hb

theorem perm_snoc_swap (A B : List β) (d : β) :
    List.Perm ((A ++ [d]) ++ B) (A ++ B ++ [d]) := by
  rw [List.append_assoc, List.append_assoc]
  exact List.Perm.append_left A (List.perm_append_comm)

theorem call_conservation [DecidableEq α] :
    ∀ (fuel : Nat),
      (∀ (s : ContextResponse α) (d : List α) (ps : List (Pair α)) (s' : ContextResponse α),
        ContextResponse.call fuel s d = (ps, s', none) →
        List.Perm (s'.processed ++ s'.initial_samples)
          (s.processed ++ s.initial_samples ++ [d])) ∧
      (∀ (ds : List (List α)) (s : ContextResponse α) (ps : List (Pair α))
          (s' : ContextResponse α),
        callList fuel s ds = (ps, s', none) →
        List.Perm (s'.processed ++ s'.initial_samples)
          (s.processed ++ s.initial_samples ++ ds)) := by
  have hwarm : ∀ (fuel : Nat) (s : ContextResponse α) (d : List α) (ps : List (Pair α))
      (s' : ContextResponse α), (bufAfterCarry s).length < s.buffer_size →
      ContextResponse.call fuel s d = (ps, s', none) →
      List.Perm (s'.processed ++ s'.initial_samples)
        (s.processed ++ s.initial_samples ++ [d]) := by
    intro fuel s d ps s' hw h
    rw [call_warmup fuel s d hw] at h
    simp only [Prod.mk.injEq] at h
    rw [← h.2.1]
    rw [List.append_assoc]
  have hsteady : ∀ (fuel : Nat) (s : ContextResponse α) (d : List α) (ps : List (Pair α))
      (s' : ContextResponse α), ¬ (bufAfterCarry s).length < s.buffer_size →
      ¬ s.counter + 1 = s.total_dialogues →
      ContextResponse.call fuel s d = (ps, s', none) →
      List.Perm (s'.processed ++ s'.initial_samples)
        (s.processed ++ s.initial_samples ++ [d]) := by
    intro fuel s d ps s' hw hc h
    rw [call_steady fuel s d hw hc, create_pairs_eq] at h
    simp only [Prod.mk.injEq] at h
    rw [← h.2.1]
    exact perm_snoc_swap s.processed s.initial_samples d
  intro fuel
  induction fuel with
  | zero =>
    have hcall : ∀ (s : ContextResponse α) (d : List α) (ps : List (Pair α))
        (s' : ContextResponse α), ContextResponse.call 0 s d = (ps, s', none) →
        List.Perm (s'.processed ++ s'.initial_samples)
          (s.processed ++ s.initial_samples ++ [d]) := by
      intro s d ps s' h
      by_cases hw : (bufAfterCarry s).length < s.buffer_size
      · exact hwarm 0 s d ps s' hw h
      · by_cases hc : s.counter + 1 = s.total_dialogues
        · rw [call_flush_zero s d hw hc] at h
          simp only [Prod.mk.injEq] at h
          exact absurd h.2.2 (by simp)
        · exact hsteady 0 s d ps s' hw hc h
    refine ⟨hcall, ?_⟩
    intro ds
    induction ds with
    | nil =>
      intro s ps s' h
      rw [callList_nil] at h
      simp only [Prod.mk.injEq] at h
      rw [← h.2.1]
      simp
    | cons d ds ih =>
      intro s ps s' h
      cases hoe : (ContextResponse.call 0 s d).2.2 with
      | some e =>
        rw [callList_cons_error 0 s d ds e hoe] at h
        simp only [Prod.mk.injEq] at h
        exact absurd h.2.2 (by simp)
      | none =>
        rw [callList_cons_ok 0 s d ds hoe] at h
        simp only [Prod.mk.injEq] at h
        have hhead : ContextResponse.call 0 s d =
            ((ContextResponse.call 0 s d).1, (ContextResponse.call 0 s d).2.1, none) := by
          rw [← hoe]
        have hp1 := hcall s d (ContextResponse.call 0 s d).1
          (ContextResponse.call 0 s d).2.1 hhead
        have h2 : (callList 0 (ContextResponse.call 0 s d).2.1 ds).2 = (s', none) := h.2
        have htail : callList 0 (ContextResponse.call 0 s d).2.1 ds =
            ((callList 0 (ContextResponse.call 0 s d).2.1 ds).1, s', none) := by
          rw [← h2]
        have hp2 := ih (ContextResponse.call 0 s d).2.1
          (callList 0 (ContextResponse.call 0 s d).2.1 ds).1 s' htail
        refine hp2.trans ?_
        refine (List.Perm.append_right ds hp1).trans ?_
        rw [List.append_assoc (s.processed ++ s.initial_samples), List.singleton_append]
  | succ f ihf =>
    have hcall : ∀ (s : ContextResponse α) (d : List α) (ps : List (Pair α))
        (s' : ContextResponse α), ContextResponse.call (f + 1) s d = (ps, s', none) →
        List.Perm (s'.processed ++ s'.initial_samples)
          (s.processed ++ s.initial_samples ++ [d]) := by
      intro s d ps s' h
      by_cases hw : (bufAfterCarry s).length < s.buffer_size
      · exact hwarm (f + 1) s d ps s' hw h
      · by_cases hc : s.counter + 1 = s.total_dialogues
        · rw [call_flush f s d hw hc] at h
          have hp := ihf.2 (d :: s.initial_samples)
            { s with counter := 0
                     buffer := bufAfterCarry s
                     prev_utterances := newCarry s d
                     initial_samples := [] } ps s' h
          refine hp.trans ?_
          simp only [List.append_nil]
          rw [List.append_assoc]
          refine List.Perm.append_left s.processed ?_
          rw [← List.singleton_append]
          exact List.perm_append_comm
        · exact hsteady (f + 1) s d ps s' hw hc h
    refine ⟨hcall, ?_⟩
    intro ds
    induction ds with
    | nil =>
      intro s ps s' h
      rw [callList_nil] at h
      simp only [Prod.mk.injEq] at h
      rw [← h.2.1]
      simp
    | cons d ds ih =>
      intro s ps s' h
      cases hoe : (ContextResponse.call (f + 1) s d).2.2 with
      | some e =>
        rw [callList_cons_error (f + 1) s d ds e hoe] at h
        simp only [Prod.mk.injEq] at h
        exact absurd h.2.2 (by simp)
      | none =>
        rw [callList_cons_ok (f + 1) s d ds hoe] at h
        simp only [Prod.mk.injEq] at h
        have hhead : ContextResponse.call (f + 1) s d =
            ((ContextResponse.call (f + 1) s d).1,
             (ContextResponse.call (f + 1) s d).2.1, none) := by
          rw [← hoe]
        have hp1 := hcall s d (ContextResponse.call (f + 1) s d).1
          (ContextResponse.call (f + 1) s d).2.1 hhead
        have h2 : (callList (f + 1) (ContextResponse.call (f + 1) s d).2.1 ds).2 =
            (s', none) := h.2
        have htail : callList (f + 1) (ContextResponse.call (f + 1) s d).2.1 ds =
            ((callList (f + 1) (ContextResponse.call (f + 1) s d).2.1 ds).1, s', none) := by
          rw [← h2]
        have hp2 := ih (ContextResponse.call (f + 1) s d).2.1
          (callList (f + 1) (ContextResponse.call (f + 1) s d).2.1 ds).1 s' htail
        refine hp2.trans ?_
        refine (List.Perm.append_right ds hp1).trans ?_
        rw [List.append_assoc (s.processed ++ s.initial_samples), List.singleton_append]

/-! ## Carry-over lemmas -/

theorem take_min_length (l : List α) (x : Nat) : l.take (min l.length x) = l.take x := by
  rcases Nat.le_total l.length x with h | h
  · rw [min_eq_left h, List.take_length, List.take_of_length_le h]
  · rw [min_eq_right h]

theorem bufAfterCarry_eq [DecidableEq α] (s : ContextResponse α)
    (hb : s.buffer.length ≤ s.buffer_size) :
    bufAfterCarry s =
      s.buffer ++ s.prev_utterances.take (s.buffer_size - s.buffer.length) := by
  unfold bufAfterCarry carryIns
  rw [take_min_length]
  apply dequeExtend_no_evict
  simp only [List.length_take]
  omega

theorem call_prev [DecidableEq α] (fuel : Nat) (s : ContextResponse α) (d : List α)
    (hnf : (bufAfterCarry s).length < s.buffer_size ∨ s.counter + 1 ≠ s.total_dialogues) :
    (ContextResponse.call fuel s d).2.1.prev_utterances = newCarry s d := by
  by_cases hw : (bufAfterCarry s).length < s.buffer_size
  · rw [call_warmup fuel s d hw]
  · have hc : s.counter + 1 ≠ s.total_dialogues := by
      rcases hnf with h | h
      · exact absurd h hw
      · exact h
    rw [call_steady fuel s d hw hc, create_pairs_eq]

/-! ## The claims -/

/-- C1: every label-0 pair emitted by the sampling procedure — including
pairs emitted before an error aborts the generator — has a response that is
not the window's true response and is not a member of the window's context.
The output of `create_pairs_go` decomposes into consecutive per-window
groups (one group per processed window, the last possibly partial when a
`SamplingDeadlockError` or `PoolExhaustedError` is raised), and within a
window's group every label-0 pair carries that window's context and a
response colliding with neither the context nor the true response.  Hence on
a degenerate corpus the observed outcome is the error, never a violating
pair. -/
theorem claim_C1 [DecidableEq α] (cs bsz n : Nat) (d buf : List α) (rand : List Nat) :
    ∃ groups : List (List (Pair α)),
      (create_pairs_go cs bsz n d buf rand).1 = groups.flatten ∧
      groups.length ≤ (windows cs d).length ∧
      List.Forall₂ (fun (w : List α × α) (g : List (Pair α)) =>
          ∀ p ∈ g, p.context = w.1 ∧
            (p.label = 0 → p.response ∉ w.1 ∧ p.response ≠ w.2))
        ((windows cs d).take groups.length) groups := by
  obtain ⟨groups, h1, h2, h3⟩ := create_pairs_go_groups cs bsz n d buf rand
  refine ⟨groups, h1, h2, List.Forall₂.imp ?_ h3⟩
  intro w g hwg p hp
  exact ⟨(hwg p hp).1, (hwg p hp).2.1⟩

/-- C2 counterexample: the retry budget is NOT re-initialised at the start of
each draw, and `SamplingDeadlockError` is NOT raised exactly when the budget
reaches 0 without an acceptable candidate.  With pool `[1, 2, 0]` (capacity
3), context `[10]`, true response `0` and rotation stream `[0,0,1,1,1]`: the
code (`drawNegatives`, budget initialised once to 3 for the window) emits one
pair and then deadlocks on the second draw, although that draw's retry loop
ends holding the acceptable candidate `1` (third conjunct) — the budget just
hit 0.  The behaviour described by the claim (`drawNegativesSpec`:
per-draw budget, error only if the final candidate still collides) emits two
valid pairs and no error on the same input. -/
theorem claim_C2_cex :
    drawNegatives 3 [10] 0 2 [1, 2, 0] [0, 0, 1, 1, 1] 3 =
      ([⟨[10], 2, 0⟩], [0], [], 0, some .deadlock) ∧
    drawNegativesSpec 3 [10] 0 2 [1, 2, 0] [0, 0, 1, 1, 1] =
      ([⟨[10], 2, 0⟩, ⟨[10], 1, 0⟩], [0], [], none) ∧
    retryLoop 3 [10] 0 1 0 [1] [1] = .ok (1, [0], [], 0) ∧
    (1 : Nat) ∉ [10] ∧ (1 : Nat) ≠ 0 := by decide

/-- C2 (amended): the retry budget is initialised once per window (to the
Pool size at the start of the window) and threaded through that window's
`num_negative` draws (third conjunct: the next draw continues with the budget
left by the previous one, not with a fresh Pool-size budget);
`SamplingDeadlockError` is raised exactly when a draw's retry loop ends with
the budget at 0 — even when the final candidate drawn is acceptable (second
conjunct); a candidate accepted while the budget is still positive is emitted
and is then neither the true response nor a member of the context (first
conjunct). -/
theorem claim_C2 [DecidableEq α] (bsz : Nat) (ctx : List α) (resp : α)
    (buf : List α) (rand : List Nat) (lc : Nat) :
    (∀ q, drawNegative bsz ctx resp buf rand lc = .ok q →
      q.2.2.2 ≠ 0 ∧ q.1 ∉ ctx ∧ q.1 ≠ resp) ∧
    (∀ e, drawNegative bsz ctx resp buf rand lc = .error e → e.1 = .deadlock →
      e.2.2.2 = 0) ∧
    (∀ n : Nat,
      drawNegatives bsz ctx resp (n + 1) buf rand lc =
        match drawNegative bsz ctx resp buf rand lc with
        | .error e => ([], e.2.1, e.2.2.1, e.2.2.2, some e.1)
        | .ok q =>
          (⟨ctx, q.1, 0⟩ :: (drawNegatives bsz ctx resp n q.2.1 q.2.2.1 q.2.2.2).1,
           (drawNegatives bsz ctx resp n q.2.1 q.2.2.1 q.2.2.2).2)) :=
  ⟨fun q h => drawNegative_ok bsz ctx resp buf rand lc q h,
   fun e h hd => drawNegative_deadlock bsz ctx resp buf rand lc e h hd,
   fun n => drawNegatives_succ bsz ctx resp n buf rand lc⟩

theorem claim_C2_witness :
    (3 : Nat) ≠ 0 ∧ (3 : Nat) ∉ [10] ∧ (3 : Nat) ≠ 0 :=
  (claim_C2 3 [10] 0 [1, 2, 3] [0] 3).1 (3, [1, 2], [], 3) (by decide)

/-- C3 counterexample: with `total_dialogues = 2`, `context_size = 1`,
`buffer_size = 2`, `num_negative = 1` (a configuration the constructor
accepts) and the two dialogues `[5]` and `[6, 7]`, the span of exactly
`total_dialogues = 2` consecutive top-level calls produces no pairs, hands no
dialogue to `create_pairs` (the ghost `processed` log stays empty), leaves
both dialogues in the Deferred Dialogue Set, and raises no error — the second
call is still in WARMUP when the pass counter reaches `total_dialogues`, so
the FLUSH branch is skipped and the counter (now 2, only ever reset inside
FLUSH) has overshot: neither dialogue contributes pairs in the span,
contradicting the claim. -/
theorem claim_C3_cex :
    (callList 3 (⟨2, 1, 2, 1, [], [], [], 0, [], []⟩ : ContextResponse Nat)
        [[5], [6, 7]]).2.2 = none ∧
    (callList 3 (⟨2, 1, 2, 1, [], [], [], 0, [], []⟩ : ContextResponse Nat)
        [[5], [6, 7]]).1 = [] ∧
    (callList 3 (⟨2, 1, 2, 1, [], [], [], 0, [], []⟩ : ContextResponse Nat)
        [[5], [6, 7]]).2.1.processed = [] ∧
    (callList 3 (⟨2, 1, 2, 1, [], [], [], 0, [], []⟩ : ContextResponse Nat)
        [[5], [6, 7]]).2.1.initial_samples = [[5], [6, 7]] ∧
    (callList 3 (⟨2, 1, 2, 1, [], [], [], 0, [], []⟩ : ContextResponse Nat)
        [[5], [6, 7]]).2.1.counter = 2 := by decide

/-- C3 (amended): across any error-free sequence of consecutive top-level
calls, every dialogue supplied is either handed to `create_pairs` exactly
once (directly in STEADY state or via FLUSH replay) or is still held in the
Deferred Dialogue Set at the end of the span: the multiset of dialogues is
conserved (first conjunct, a permutation).  In particular, when the span
starts from a pass boundary (nothing processed, nothing deferred) and ends
with an empty Deferred Dialogue Set, every supplied dialogue was handed to
`create_pairs` exactly once (second conjunct).  The unconditional claim is
false: if the `total_dialogues`-th call is still in WARMUP the flush is
skipped, the counter overshoots, and the deferred dialogues are never
replayed (see the counterexample). -/
theorem claim_C3 [DecidableEq α] (fuel : Nat) (s : ContextResponse α)
    (ds : List (List α)) (ps : List (Pair α)) (s' : ContextResponse α)
    (h : callList fuel s ds = (ps, s', none)) :
    List.Perm (s'.processed ++ s'.initial_samples)
      (s.processed ++ s.initial_samples ++ ds) ∧
    (s.processed = [] → s.initial_samples = [] → s'.initial_samples = [] →
      List.Perm s'.processed ds) := by
  have hp := (call_conservation fuel).2 ds s ps s' h
  refine ⟨hp, fun h1 h2 h3 => ?_⟩
  rw [h1, h2, h3] at hp
  simpa using hp

theorem claim_C3_witness :
    List.Perm
      ((⟨2, 1, 2, 1, [5, 7], [[5], [6, 7]], [6], 2, [], []⟩ :
          ContextResponse Nat).processed ++
        (⟨2, 1, 2, 1, [5, 7], [[5], [6, 7]], [6], 2, [], []⟩ :
          ContextResponse Nat).initial_samples)
      ((⟨2, 1, 2, 1, [], [], [], 0, [], []⟩ : ContextResponse Nat).processed ++
        (⟨2, 1, 2, 1, [], [], [], 0, [], []⟩ : ContextResponse Nat).initial_samples ++
        [[5], [6, 7]]) ∧
    ((⟨2, 1, 2, 1, [], [], [], 0, [], []⟩ : ContextResponse Nat).processed = [] →
      (⟨2, 1, 2, 1, [], [], [], 0, [], []⟩ : ContextResponse Nat).initial_samples = [] →
      (⟨2, 1, 2, 1, [5, 7], [[5], [6, 7]], [6], 2, [], []⟩ :
          ContextResponse Nat).initial_samples = [] →
      List.Perm (⟨2, 1, 2, 1, [5, 7], [[5], [6, 7]], [6], 2, [], []⟩ :
          ContextResponse Nat).processed [[5], [6, 7]]) :=
  claim_C3 3 ⟨2, 1, 2, 1, [], [], [], 0, [], []⟩ [[5], [6, 7]] []
    ⟨2, 1, 2, 1, [5, 7], [[5], [6, 7]], [6], 2, [], []⟩ (by decide)

/-- C4: when a call finds the Pool at capacity after carry-over insertion and
the incremented pass counter equals `total_dialogues`, the Builder replays
the current dialogue followed by the deferred dialogues in recorded order
through the full per-call protocol (`callList` folds `ContextResponse.call`
over the replay list), with the Deferred Dialogue Set cleared and the pass
counter reset to 0 beforehand (first conjunct); driving the protocol over a
replay list concatenates each call's produced pairs in order (second
conjunct). -/
theorem claim_C4 [DecidableEq α] (f : Nat) (s : ContextResponse α) (d : List α)
    (hw : ¬ (bufAfterCarry s).length < s.buffer_size)
    (hc : s.counter + 1 = s.total_dialogues) :
    ContextResponse.call (f + 1) s d =
      callList f
        { s with counter := 0
                 buffer := bufAfterCarry s
                 prev_utterances := newCarry s d
                 initial_samples := [] }
        (d :: s.initial_samples) ∧
    (∀ (s0 : ContextResponse α) (d0 : List α) (ds0 : List (List α)),
      (ContextResponse.call f s0 d0).2.2 = none →
      callList f s0 (d0 :: ds0) =
        ((ContextResponse.call f s0 d0).1 ++
           (callList f (ContextResponse.call f s0 d0).2.1 ds0).1,
         (callList f (ContextResponse.call f s0 d0).2.1 ds0).2)) :=
  ⟨call_flush f s d hw hc, fun s0 d0 ds0 h => callList_cons_ok f s0 d0 ds0 h⟩

theorem claim_C4_witness :
    ContextResponse.call 2 (⟨2, 1, 2, 1, [1, 2], [[9, 9]], [], 1, [0, 0, 0, 0], []⟩ :
        ContextResponse Nat) [3] =
      callList 1
        { (⟨2, 1, 2, 1, [1, 2], [[9, 9]], [], 1, [0, 0, 0, 0], []⟩ :
            ContextResponse Nat) with
          counter := 0
          buffer := bufAfterCarry (⟨2, 1, 2, 1, [1, 2], [[9, 9]], [], 1, [0, 0, 0, 0], []⟩ :
            ContextResponse Nat)
          prev_utterances := newCarry (⟨2, 1, 2, 1, [1, 2], [[9, 9]], [], 1, [0, 0, 0, 0], []⟩ :
            ContextResponse Nat) [3]
          initial_samples := [] }
        ([3] :: (⟨2, 1, 2, 1, [1, 2], [[9, 9]], [], 1, [0, 0, 0, 0], []⟩ :
            ContextResponse Nat).initial_samples) :=
  (claim_C4 1 ⟨2, 1, 2, 1, [1, 2], [[9, 9]], [], 1, [0, 0, 0, 0], []⟩ [3]
    (by decide) (by decide)).1

/-- C5: a call that still finds the Pool below capacity after carry-over
insertion (WARMUP) appends utterances taken from the tail of the dialogue
backward until the Pool reaches capacity or the dialogue is exhausted (the
buffer becomes the current buffer followed by the first
`buffer_size - occupancy` elements of the reversed dialogue), appends the
dialogue to the Deferred Dialogue Set, updates the pending carry-over, and
produces zero pairs and no error. -/
theorem claim_C5 [DecidableEq α] (fuel : Nat) (s : ContextResponse α) (d : List α)
    (hw : (bufAfterCarry s).length < s.buffer_size) :
    ContextResponse.call fuel s d =
      ([], { s with counter := s.counter + 1
                    buffer := bufAfterCarry s ++
                      d.reverse.take (s.buffer_size - (bufAfterCarry s).length)
                    prev_utterances := newCarry s d
                    initial_samples := s.initial_samples ++ [d] }, none) := by
  rw [call_warmup fuel s d hw, warmupFillGo_eq]

theorem claim_C5_witness :
    ContextResponse.call 1 (⟨5, 2, 3, 1, [], [], [], 0, [], []⟩ : ContextResponse Nat)
        [4, 5, 6, 7] =
      ([], { (⟨5, 2, 3, 1, [], [], [], 0, [], []⟩ : ContextResponse Nat) with
             counter := (⟨5, 2, 3, 1, [], [], [], 0, [], []⟩ :
               ContextResponse Nat).counter + 1
             buffer := bufAfterCarry (⟨5, 2, 3, 1, [], [], [], 0, [], []⟩ :
                 ContextResponse Nat) ++
               ([4, 5, 6, 7] : List Nat).reverse.take
                 ((⟨5, 2, 3, 1, [], [], [], 0, [], []⟩ :
                     ContextResponse Nat).buffer_size -
                   (bufAfterCarry (⟨5, 2, 3, 1, [], [], [], 0, [], []⟩ :
                     ContextResponse Nat)).length)
             prev_utterances := newCarry (⟨5, 2, 3, 1, [], [], [], 0, [], []⟩ :
               ContextResponse Nat) [4, 5, 6, 7]
             initial_samples := (⟨5, 2, 3, 1, [], [], [], 0, [], []⟩ :
               ContextResponse Nat).initial_samples ++ [[4, 5, 6, 7]] }, none) :=
  claim_C5 1 ⟨5, 2, 3, 1, [], [], [], 0, [], []⟩ [4, 5, 6, 7] (by decide)

/-- C6 counterexample: the claim's slice formula read as a length — the
leading slice of length `min((len(d) − context_size) × num_negative, len(d))`
(`specCarryOver`, empty when the computed value is negative) — disagrees with
the code.  With `context_size = 4`, `num_negative = 1` (constructor-valid
configuration `total_dialogues = 5`, `buffer_size = 2`) and dialogue
`[7, 8, 9]`, the computed value is `min(-1, 3) = -1`: the code stores the
Python slice `d[:-1] = [7, 8]` as the pending carry-over, not the empty
slice. -/
theorem claim_C6_cex :
    (ContextResponse.call 1 (⟨5, 4, 2, 1, [], [], [], 0, [], []⟩ : ContextResponse Nat)
        [7, 8, 9]).2.1.prev_utterances = [7, 8] ∧
    specCarryOver 4 1 ([7, 8, 9] : List Nat) = [] ∧
    ([7, 8] : List Nat) ≠ [] := by decide

/-- C6 (amended): at the start of every call the pending carry-over from the
previous call is inserted into the Pool truncated to the Pool's remaining
capacity, the remainder being discarded (first conjunct: the buffer after
insertion is the old buffer followed by the first
`buffer_size - occupancy` carry-over elements); and for every non-FLUSH call
on `d` the new Pending Carry-Over Utterances equal the Python slice
`d[:min((len(d) − context_size) × num_negative, len(d))]` (`pySliceTo`,
second conjunct) — i.e. the leading slice of the claimed length when that
value is nonnegative, and the leading `len(d) − |value|` elements (Python
negative-index semantics) when it is negative. -/
theorem claim_C6 [DecidableEq α] (fuel : Nat) (s : ContextResponse α) (d : List α)
    (hb : s.buffer.length ≤ s.buffer_size)
    (hnf : (bufAfterCarry s).length < s.buffer_size ∨ s.counter + 1 ≠ s.total_dialogues) :
    bufAfterCarry s =
      s.buffer ++ s.prev_utterances.take (s.buffer_size - s.buffer.length) ∧
    (ContextResponse.call fuel s d).2.1.prev_utterances =
      pySliceTo d (min (((d.length : Int) - (s.context_size : Int)) * (s.num_negative : Int))
        (d.length : Int)) :=
  ⟨bufAfterCarry_eq s hb, call_prev fuel s d hnf⟩

theorem claim_C6_witness :
    bufAfterCarry (⟨5, 2, 3, 1, [], [], [], 0, [], []⟩ : ContextResponse Nat) =
      (⟨5, 2, 3, 1, [], [], [], 0, [], []⟩ : ContextResponse Nat).buffer ++
        (⟨5, 2, 3, 1, [], [], [], 0, [], []⟩ :
          ContextResponse Nat).prev_utterances.take
          ((⟨5, 2, 3, 1, [], [], [], 0, [], []⟩ : ContextResponse Nat).buffer_size -
            (⟨5, 2, 3, 1, [], [], [], 0, [], []⟩ : ContextResponse Nat).buffer.length) ∧
    (ContextResponse.call 1 (⟨5, 2, 3, 1, [], [], [], 0, [], []⟩ : ContextResponse Nat)
        [4, 5]).2.1.prev_utterances =
      pySliceTo ([4, 5] : List Nat)
        (min (((([4, 5] : List Nat).length : Int) -
            ((⟨5, 2, 3, 1, [], [], [], 0, [], []⟩ : ContextResponse Nat).context_size : Int)) *
            ((⟨5, 2, 3, 1, [], [], [], 0, [], []⟩ : ContextResponse Nat).num_negative : Int))
          ((([4, 5] : List Nat).length : Int))) :=
  claim_C6 1 ⟨5, 2, 3, 1, [], [], [], 0, [], []⟩ [4, 5] (by decide) (Or.inl (by decide))

/-- C7: for every dialogue processed without error, the emitted pairs are
exactly, in increasing window-start order: for the `i`-th window, some
`num_negative` label-0 pairs followed by one label-1 pair whose context is
`d[i : i + context_size]` and whose response is `d[i + context_size]`
(the `windows` list has one entry per start index `0 ≤ i < len(d) −
context_size`, its `i`-th entry being that context/response — first two
conjuncts — and the output flattens the per-window groups in order, each
group holding exactly `num_negative` label-0 pairs with the window's context
and then the window's label-1 pair — last conjunct). -/
theorem claim_C7 [DecidableEq α] (cs bsz n : Nat) (d buf : List α) (rand : List Nat)
    (hok : (create_pairs_go cs bsz n d buf rand).2.2.2 = none) :
    (windows cs d).length = d.length - cs ∧
    (∀ (i : Nat) (r : α), d[i + cs]? = some r →
      (windows cs d)[i]? = some ((d.drop i).take cs, r)) ∧
    ∃ negss : List (List α),
      negss.length = (windows cs d).length ∧
      (∀ gs ∈ negss, gs.length = n) ∧
      (create_pairs_go cs bsz n d buf rand).1 =
        (List.zipWith (fun (w : List α × α) (negs : List α) =>
            negs.map (fun x => ⟨w.1, x, 0⟩) ++ [⟨w.1, w.2, 1⟩])
          (windows cs d) negss).flatten :=
  ⟨windows_length cs d, fun i r h => windows_getElem cs d i r h,
   create_pairs_go_structure cs bsz n d buf rand hok⟩

theorem claim_C7_witness :
    (windows 1 ([5, 6] : List Nat)).length = ([5, 6] : List Nat).length - 1 ∧
    (∀ (i : Nat) (r : Nat), ([5, 6] : List Nat)[i + 1]? = some r →
      (windows 1 ([5, 6] : List Nat))[i]? =
        some ((([5, 6] : List Nat).drop i).take 1, r)) ∧
    ∃ negss : List (List Nat),
      negss.length = (windows 1 ([5, 6] : List Nat)).length ∧
      (∀ gs ∈ negss, gs.length = 1) ∧
      (create_pairs_go 1 3 1 [5, 6] [1, 2, 3] [0, 0]).1 =
        (List.zipWith (fun (w : List Nat × Nat) (negs : List Nat) =>
            negs.map (fun x => ⟨w.1, x, 0⟩) ++ [⟨w.1, w.2, 1⟩])
          (windows 1 ([5, 6] : List Nat)) negss).flatten :=
  claim_C7 1 3 1 [5, 6] [1, 2, 3] [0, 0] (by decide)

/-- C8: construction fails (the constructor's asserts reject the arguments,
yielding `none`) exactly when `num_negative ≥ buffer_size` or
`buffer_size > total_dialogues`, i.e. it succeeds exactly when
`num_negative < buffer_size` and `buffer_size ≤ total_dialogues`; in
particular `(total_dialogues = 5, context_size = 2, buffer_size = 3,
num_negative = 3)` is rejected. -/
theorem claim_C8 :
    (∀ (t cs b n : Nat) (rand : List Nat),
      (ContextResponse.init Nat t cs b n rand).isSome ↔ (n < b ∧ b ≤ t)) ∧
    ContextResponse.init Nat 5 2 3 3 [] = none := by
  constructor
  · intro t cs b n rand
    unfold ContextResponse.init
    split
    · rename_i h
      simp [h]
    · rename_i h
      simp [h]
  · rfl

/-- C9: the Negative Candidate Pool never exceeds `buffer_size`: the buffer
is empty after construction, and every call of the Builder — warmup fill,
carry-over insertion, all draws and push-backs during sampling, and flush
replay, in error runs included — maps a state satisfying
`buffer.length ≤ buffer_size` to a state satisfying it (the configuration
field `buffer_size` itself never changes). -/
theorem claim_C9 :
    (∀ (t cs b n : Nat) (rand : List Nat) (s : ContextResponse Nat),
      ContextResponse.init Nat t cs b n rand = some s →
      s.buffer.length ≤ s.buffer_size) ∧
    (∀ (fuel : Nat) (s : ContextResponse Nat) (d : List Nat),
      s.buffer.length ≤ s.buffer_size →
      (ContextResponse.call fuel s d).2.1.buffer.length ≤
        (ContextResponse.call fuel s d).2.1.buffer_size ∧
      (ContextResponse.call fuel s d).2.1.buffer_size = s.buffer_size) := by
  constructor
  · intro t cs b n rand s h
    unfold ContextResponse.init at h
    split at h
    · cases h
      simp
    · exact Option.noConfusion h
  · intro fuel s d hb
    exact (call_buffer_invariant fuel).1 s d hb

theorem claim_C9_witness :
    (ContextResponse.call 1 (⟨5, 2, 3, 1, [7, 8], [], [9], 1, [0], []⟩ :
        ContextResponse Nat) [1, 2, 3]).2.1.buffer.length ≤
      (ContextResponse.call 1 (⟨5, 2, 3, 1, [7, 8], [], [9], 1, [0], []⟩ :
        ContextResponse Nat) [1, 2, 3]).2.1.buffer_size ∧
    (ContextResponse.call 1 (⟨5, 2, 3, 1, [7, 8], [], [9], 1, [0], []⟩ :
        ContextResponse Nat) [1, 2, 3]).2.1.buffer_size =
      (⟨5, 2, 3, 1, [7, 8], [], [9], 1, [0], []⟩ : ContextResponse Nat).buffer_size :=
  claim_C9.2 1 ⟨5, 2, 3, 1, [7, 8], [], [9], 1, [0], []⟩ [1, 2, 3] (by decide)

/-- C10: with a positive capacity, the pop inside the retry `while` loop can
never raise: the retry loop always returns normally (never the hypothetical
`Err.rawPop`), because every such pop is preceded by pushing the rejected
candidate back, leaving the deque non-empty (first conjunct); and the
empty-pool `IndexError` branch (`Err.emptyPop`) is reachable exactly at the
first pop of a draw on an empty pool (second conjunct). -/
theorem claim_C10 [DecidableEq α] (bsz : Nat) (hm : 0 < bsz) (ctx : List α) (resp : α) :
    (∀ (lc : Nat) (neg : α) (buf : List α) (rand : List Nat),
      ∃ q, retryLoop bsz ctx resp lc neg buf rand = .ok q) ∧
    (∀ (buf : List α) (rand : List Nat) (lc : Nat),
      (∃ b r l, drawNegative bsz ctx resp buf rand lc = .error (.emptyPop, b, r, l)) ↔
        buf = []) :=
  ⟨retryLoop_ok_of_pos bsz ctx resp hm,
   fun buf rand lc => drawNegative_emptyPop_iff bsz ctx resp hm buf rand lc⟩

theorem claim_C10_witness :
    (∀ (lc : Nat) (neg : Nat) (buf : List Nat) (rand : List Nat),
      ∃ q, retryLoop 3 [10] 0 lc neg buf rand = .ok q) ∧
    (∀ (buf : List Nat) (rand : List Nat) (lc : Nat),
      (∃ b r l, drawNegative 3 [10] 0 buf rand lc = .error (.emptyPop, b, r, l)) ↔
        buf = []) :=
  claim_C10 3 (by decide) [10] 0

end DualEncoder
